import Mathlib

/-!
Verification of the structural code-chunking core of `_CodeChunkerMS`
(`src/_CodeChunkerMS/code_chunker.py`), modelled as a shallow embedding:
the concrete syntax tree is a rose tree of nodes carrying the fields the
walker reads (type tag, byte offsets, line numbers, children), the source
text is a list of characters indexed by those offsets, and the recursive
walker, fallback producer and public entry point are translated directly
from the Python source.
-/

namespace CodeChunker

/-- Python string slice `code[s:e]` for non-negative indices:
elements at positions `s ≤ i < e`, clamped to the length. -/
def pySlice (code : List Char) (s e : Nat) : List Char :=
  (code.take e).drop s

/-- The exact whitespace set of Python `str.isspace()` — the characters
`str.strip()` removes: the ASCII controls 0x09–0x0d, the separators
0x1c–0x1f, the space, NEL (0x85), the no-break space (0xa0), the ogham
space mark (0x1680), the fixed-width spaces 0x2000–0x200a, the line and
paragraph separators (0x2028, 0x2029), the narrow no-break space (0x202f),
the medium mathematical space (0x205f) and the ideographic space
(0x3000). -/
def isPySpace (c : Char) : Bool :=
  (0x09 ≤ c.val && c.val ≤ 0x0d) ||
  (0x1c ≤ c.val && c.val ≤ 0x20) ||
  c.val = 0x85 || c.val = 0xa0 || c.val = 0x1680 ||
  (0x2000 ≤ c.val && c.val ≤ 0x200a) ||
  c.val = 0x2028 || c.val = 0x2029 || c.val = 0x202f ||
  c.val = 0x205f || c.val = 0x3000

/-- Python `str.strip()` with no argument: remove `str.isspace()`
characters from both ends. -/
def pyStrip (code : List Char) : List Char :=
  ((code.dropWhile isPySpace).reverse.dropWhile isPySpace).reverse

/-- Line-break characters recognised by Python `str.splitlines()`. -/
def isLineBreak (c : Char) : Bool :=
  c = '\n' || c = '\r' || c = '\x0b' || c = '\x0c' ||
  c = '\x1c' || c = '\x1d' || c = '\x1e' || c = '\x85' ||
  c = '\u2028' || c = '\u2029'

/-- Accumulator-based core of `str.splitlines()`: `\r\n` counts as a single
break, a trailing break does not open a new line. -/
def splitlinesAux : List Char → List Char → List (List Char)
  | [], acc => if acc.isEmpty then [] else [acc.reverse]
  | '\r' :: '\n' :: rest, acc => acc.reverse :: splitlinesAux rest []
  | c :: rest, acc =>
    if isLineBreak c then acc.reverse :: splitlinesAux rest []
    else splitlinesAux rest (c :: acc)

/-- Python `str.splitlines()`. -/
def pySplitlines (code : List Char) : List (List Char) :=
  splitlinesAux code []

/-- `LANG_MAP` from `code_chunker.py`: extension → tree-sitter language name. -/
def LANG_MAP : List (String × String) :=
  [(".py", "python"),
   (".js", "javascript"), (".jsx", "javascript"),
   (".ts", "typescript"), (".tsx", "typescript"),
   (".go", "go"),
   (".rs", "rust"),
   (".java", "java"),
   (".cpp", "cpp"), (".cc", "cpp"), (".c", "c"), (".h", "c")]

/-- `CHUNK_NODES` from `code_chunker.py`: the single global set of
"atomic unit" node type tags (the Python set literal deduplicates the
repeated entries `method_definition` and `function_declaration`). -/
def CHUNK_NODES : List String :=
  ["class_definition", "function_definition", "method_definition",
   "class_declaration", "function_declaration",
   "func_literal",
   "function_item", "impl_item"]

/-- A CST node as the walker sees it: type tag, `start_byte`, `end_byte`,
`start_point[0]`, `end_point[0]`, and the ordered list of children. -/
inductive Node : Type where
  | mk : String → Nat → Nat → Nat → Nat → List Node → Node

namespace Node

def type : Node → String
  | .mk t _ _ _ _ _ => t

def startByte : Node → Nat
  | .mk _ sb _ _ _ _ => sb

def endByte : Node → Nat
  | .mk _ _ eb _ _ _ => eb

def startLine : Node → Nat
  | .mk _ _ _ sl _ _ => sl

def endLine : Node → Nat
  | .mk _ _ _ _ el _ => el

def children : Node → List Node
  | .mk _ _ _ _ _ cs => cs

end Node

/-- An emitted chunk: the dict
`{"type": ..., "text": ..., "start_line": ..., "end_line": ...}`. -/
structure Chunk where
  type : String
  text : List Char
  start_line : Nat
  end_line : Nat
deriving Repr, DecidableEq

/-- The effective chunk start byte: the node's own `start_byte`, replaced by
the previous sibling's `start_byte` when that sibling exists and its type
tag is exactly `"comment"` (lines 79–86 of `code_chunker.py`). -/
def extStart (node : Node) (prev : Option Node) : Nat :=
  match prev with
  | some p => if p.type = "comment" then p.startByte else node.startByte
  | none => node.startByte

mutual
/-- The recursive walker `walk(node)` of `_parse`, with the tree-supplied
`prev_sibling` made an explicit argument (the previous element of the
parent's child list, `none` for a first child and for the root). -/
def walk (code : List Char) (maxChars : Nat) : Node → Option Node → List Chunk
  | .mk ty sb eb sl el cs, prev =>
    if ty ∈ CHUNK_NODES then
      let s := extStart (.mk ty sb eb sl el cs) prev
      let chunk_text := pySlice code s eb
      if chunk_text.length > maxChars then
        walkChildren code maxChars cs none
      else
        [⟨ty, chunk_text, sl, el⟩]
    else
      walkChildren code maxChars cs none

/-- `for child in node.children: walk(child)`, threading each child's
previous sibling. -/
def walkChildren (code : List Char) (maxChars : Nat) :
    List Node → Option Node → List Chunk
  | [], _ => []
  | c :: rest, prev =>
      walk code maxChars c prev ++ walkChildren code maxChars rest (some c)
end

/-- The tail of `_parse` (lines 109–120): run the walker on the root with no
previous sibling, then, when no structural chunk was found and the stripped
source is non-empty, append the single whole-file fallback chunk. -/
def parseResult (code : List Char) (maxChars : Nat) (root : Node) : List Chunk :=
  let chunks := walk code maxChars root none
  if chunks.isEmpty && !(pyStrip code).isEmpty then
    chunks ++ [⟨"file", code, 0, (pySplitlines code).length⟩]
  else
    chunks

/-- The final path component of a POSIX path (`pathlib.PurePath.name`,
ignoring pathlib's trailing-slash normalisation). -/
def pyName (path : List Char) : List Char :=
  (path.reverse.takeWhile (fun c => c ≠ '/')).reverse

/-- `pathlib.PurePath.suffix`: the extension of the final component — the
part from the last `.` on, present only when that dot is neither the first
nor the last character of the name. -/
def pySuffix (path : List Char) : List Char :=
  let name := pyName path
  match name.reverse.findIdx? (fun c => c = '.') with
  | none => []
  | some j =>
    let i := name.length - 1 - j
    if 0 < i && i < name.length - 1 then name.drop i else []

/-- Python `str.lower()` restricted to ASCII case mapping. -/
def pyLower (s : List Char) : List Char :=
  s.map Char.toLower

/-- `chunk_file` (lines 44–61): the public entry point. The fallible body of
the `try` block — reading the file and building the CST — is modelled as an
`Except` argument: `.ok (code, root)` when it succeeds, `.error e` when any
exception is raised (the `except Exception` handler returns `[]`). An
extension missing from `LANG_MAP` returns `[]` before the `try` block. -/
def chunk_file (available : Bool) (path : List Char) (maxChars : Nat)
    (readParse : Except String (List Char × Node)) : List Chunk :=
  if !available then []
  else
    let ext := String.mk (pyLower (pySuffix path))
    match LANG_MAP.lookup ext with
    | none => []
    | some _ =>
      match readParse with
      | .error _ => []
      | .ok (code, root) => parseResult code maxChars root

set_option linter.unusedVariables false in
/-- The Unit Classifier as implemented: the walker's test
`node.type in CHUNK_NODES` (line 77). The single global set is consulted;
the language plays no role in the decision. -/
def is_chunk_unit (node_type : String) (language : String) : Bool :=
  decide (node_type ∈ CHUNK_NODES)

/-- The per-language allow-lists as the spec describes them (python exactly
`{class_definition, function_definition}`, rust exactly
`{function_item, impl_item}`); written from the spec's words, for
comparison against `is_chunk_unit`. -/
def spec_allow_list (language : String) : List String :=
  if language = "python" then ["class_definition", "function_definition"]
  else if language = "rust" then ["function_item", "impl_item"]
  else []

/-- The Unit Classifier as the spec describes it: a lookup in the active
language's own allow-list. -/
def is_chunk_unit_spec (node_type : String) (language : String) : Bool :=
  decide (node_type ∈ spec_allow_list language)

/-- Consecutive siblings are ordered by line: each child ends at or before
the next child starts. -/
def chainOK : List Node → Bool
  | [] => true
  | [_] => true
  | a :: b :: rest => (decide (a.endLine ≤ b.startLine)) && chainOK (b :: rest)

mutual
/-- The tree is in document order: every node's start line is at most its
end line, children lie within the parent's line span, consecutive siblings
are ordered left to right, and the same holds in every subtree. -/
def ordered : Node → Bool
  | .mk _ _ _ sl el cs =>
    decide (sl ≤ el) &&
    cs.all (fun c => decide (sl ≤ c.startLine) && decide (c.endLine ≤ el)) &&
    chainOK cs &&
    orderedAll cs

/-- `ordered` holds of every node in the list. -/
def orderedAll : List Node → Bool
  | [] => true
  | c :: rest => ordered c && orderedAll rest
end

mutual
/-- Instrumentation of `walk`: the addresses (paths of child indices from
the walk's entry node) of every node on which `walk` is invoked — each such
invocation classifies its node against `CHUNK_NODES` exactly once. -/
def visited (code : List Char) (maxChars : Nat) :
    Node → Option Node → List Nat → List (List Nat)
  | .mk ty sb eb sl el cs, prev, addr =>
    if ty ∈ CHUNK_NODES then
      if (pySlice code (extStart (.mk ty sb eb sl el cs) prev) eb).length > maxChars then
        addr :: visitedChildren code maxChars cs none addr 0
      else
        [addr]
    else
      addr :: visitedChildren code maxChars cs none addr 0

/-- Addresses visited across a child list, the i-th child at `addr ++ [i]`. -/
def visitedChildren (code : List Char) (maxChars : Nat) :
    List Node → Option Node → List Nat → Nat → List (List Nat)
  | [], _, _, _ => []
  | c :: rest, prev, addr, i =>
      visited code maxChars c prev (addr ++ [i]) ++
      visitedChildren code maxChars rest (some c) addr (i + 1)
end

mutual
/-- Instrumentation of `walk`: the addresses of the nodes actually emitted
as chunks, in emission order. -/
def kept (code : List Char) (maxChars : Nat) :
    Node → Option Node → List Nat → List (List Nat)
  | .mk ty sb eb sl el cs, prev, addr =>
    if ty ∈ CHUNK_NODES then
      if (pySlice code (extStart (.mk ty sb eb sl el cs) prev) eb).length > maxChars then
        keptChildren code maxChars cs none addr 0
      else
        [addr]
    else
      keptChildren code maxChars cs none addr 0

/-- Kept addresses across a child list, the i-th child at `addr ++ [i]`. -/
def keptChildren (code : List Char) (maxChars : Nat) :
    List Node → Option Node → List Nat → Nat → List (List Nat)
  | [], _, _, _ => []
  | c :: rest, prev, addr, i =>
      kept code maxChars c prev (addr ++ [i]) ++
      keptChildren code maxChars rest (some c) addr (i + 1)
end

/-! ### Unfolding equations for the mutual walker -/

theorem walkChildren_nil (code : List Char) (maxChars : Nat) (prev : Option Node) :
    walkChildren code maxChars [] prev = [] := by
  rw [walkChildren]

theorem walkChildren_cons (code : List Char) (maxChars : Nat) (c : Node)
    (rest : List Node) (prev : Option Node) :
    walkChildren code maxChars (c :: rest) prev =
      walk code maxChars c prev ++ walkChildren code maxChars rest (some c) := by
  rw [walkChildren]

theorem walk_keep (code : List Char) (maxChars : Nat) (ty : String)
    (sb eb sl el : Nat) (cs : List Node) (prev : Option Node)
    (hmem : ty ∈ CHUNK_NODES)
    (hle : (pySlice code (extStart (.mk ty sb eb sl el cs) prev) eb).length ≤ maxChars) :
    walk code maxChars (.mk ty sb eb sl el cs) prev =
      [⟨ty, pySlice code (extStart (.mk ty sb eb sl el cs) prev) eb, sl, el⟩] := by
  rw [walk]
  simp [hmem, Nat.not_lt.mpr hle]

theorem walk_recurse (code : List Char) (maxChars : Nat) (ty : String)
    (sb eb sl el : Nat) (cs : List Node) (prev : Option Node)
    (hmem : ty ∈ CHUNK_NODES)
    (hgt : (pySlice code (extStart (.mk ty sb eb sl el cs) prev) eb).length > maxChars) :
    walk code maxChars (.mk ty sb eb sl el cs) prev =
      walkChildren code maxChars cs none := by
  rw [walk]
  simp [hmem, hgt]

theorem walk_pass (code : List Char) (maxChars : Nat) (ty : String)
    (sb eb sl el : Nat) (cs : List Node) (prev : Option Node)
    (hmem : ty ∉ CHUNK_NODES) :
    walk code maxChars (.mk ty sb eb sl el cs) prev =
      walkChildren code maxChars cs none := by
  rw [walk]
  simp [hmem]

/-- Every chunk the walker emits — at any node, with any previous sibling —
has text length at most the budget: an oversized chunk-worthy node is never
emitted, it either recurses or (childless) contributes nothing. -/
theorem walk_text_le (code : List Char) (maxChars : Nat) :
    (∀ n prev, ∀ ch ∈ walk code maxChars n prev, ch.text.length ≤ maxChars) ∧
    (∀ cs prev, ∀ ch ∈ walkChildren code maxChars cs prev, ch.text.length ≤ maxChars) := by
  refine walk.mutual_induct code maxChars
    (fun n prev => ∀ ch ∈ walk code maxChars n prev, ch.text.length ≤ maxChars)
    (fun cs prev => ∀ ch ∈ walkChildren code maxChars cs prev, ch.text.length ≤ maxChars)
    ?_ ?_ ?_ ?_ ?_
  · intro ty sb eb sl el cs prev hmem s text hgt ih ch hch
    rw [walk_recurse code maxChars ty sb eb sl el cs prev hmem hgt] at hch
    exact ih ch hch
  · intro ty sb eb sl el cs prev hmem s text hle ch hch
    rw [walk_keep code maxChars ty sb eb sl el cs prev hmem (Nat.not_lt.mp hle)] at hch
    simp only [List.mem_singleton] at hch
    subst hch
    exact Nat.not_lt.mp hle
  · intro ty sb eb sl el cs prev hmem ih ch hch
    rw [walk_pass code maxChars ty sb eb sl el cs prev hmem] at hch
    exact ih ch hch
  · intro prev ch hch
    rw [walkChildren_nil] at hch
    simp at hch
  · intro c rest prev ih1 ih2 ch hch
    rw [walkChildren_cons] at hch
    rcases List.mem_append.mp hch with h | h
    · exact ih1 ch h
    · exact ih2 ch h

/-! ### Claim C1 -/

/-- Claim C1 is false as stated: a chunk-worthy node with no children whose
text exceeds the budget is not emitted whole — the walker recurses into the
empty child list and emits nothing, so the node is dropped. Here a childless
`function_definition` spanning 6 characters, with `max_chars = 5`, yields
the empty chunk list rather than a single whole chunk. -/
theorem C1_counterexample :
    "function_definition" ∈ CHUNK_NODES ∧
    (Node.mk "function_definition" 0 6 0 0 []).children = [] ∧
    (pySlice "abcdef".toList 0 6).length > 5 ∧
    walk "abcdef".toList 5 (.mk "function_definition" 0 6 0 0 []) none = [] :=
  ⟨by decide, rfl, by decide, by decide⟩

/-- Claim C1 (corrected): an oversized chunk-worthy node with no children
emits nothing (its content is dropped from the walk output; only the
whole-file fallback can recover it, and only when nothing at all was
emitted), and consequently the budget is a hard bound on the walk output:
every chunk the walker emits has text length at most `max_chars`. -/
theorem C1_budget_hard_bound (code : List Char) (maxChars : Nat)
    (n : Node) (prev : Option Node) :
    (∀ ch ∈ walk code maxChars n prev, ch.text.length ≤ maxChars) ∧
    (n.type ∈ CHUNK_NODES → n.children = [] →
      (pySlice code (extStart n prev) n.endByte).length > maxChars →
      walk code maxChars n prev = []) := by
  constructor
  · exact (walk_text_le code maxChars).1 n prev
  · obtain ⟨ty, sb, eb, sl, el, cs⟩ := n
    intro hmem hnil hgt
    simp only [Node.children] at hnil
    subst hnil
    rw [walk_recurse code maxChars ty sb eb sl el [] prev hmem hgt,
      walkChildren_nil]

/-- Witness for C1: at a concrete oversized childless node the walk output
is empty, and a concrete emitted chunk obeys the bound. -/
theorem C1_budget_hard_bound_witness :
    walk "abcdefgh".toList 4 (.mk "function_definition" 0 8 0 0 []) none = [] :=
  (C1_budget_hard_bound "abcdefgh".toList 4
      (.mk "function_definition" 0 8 0 0 []) none).2
    (by decide) rfl (by decide)

/-! ### Claim C2 -/

/-- Claim C2 is false as stated: the comment boundary extension is applied
before the keep-vs-recurse size test, not only at emission. Here the node
text measured from the node's own `start_byte` is 8 characters, within the
budget of 10, so under the claim the node would be kept as one chunk; but
the extension to the preceding comment sibling makes the measured text 13
characters, so the walker recurses and — the child being a childless
non-chunk-worthy `block` — emits nothing at all. -/
theorem C2_counterexample :
    "function_definition" ∈ CHUNK_NODES ∧
    (Node.mk "comment" 0 4 0 0 []).type = "comment" ∧
    (pySlice (List.replicate 13 'a') 5 13).length ≤ 10 ∧
    (pySlice (List.replicate 13 'a') 0 13).length > 10 ∧
    walk (List.replicate 13 'a') 10
      (.mk "function_definition" 5 13 1 1 [.mk "block" 5 13 1 1 []])
      (some (.mk "comment" 0 4 0 0 [])) = [] :=
  ⟨by decide, rfl, by decide, by decide, by decide⟩

/-- Claim C2 (corrected): the comment boundary extension runs whenever a
chunk-worthy node is examined, before the size check, so the keep-vs-recurse
decision for a chunk-worthy node is made against the comment-extended text
(measured from the preceding comment sibling's `start_byte` when that
sibling is a comment), not against the node's own `start_byte`. -/
theorem C2_size_check_uses_extended_text (code : List Char) (maxChars : Nat)
    (ty : String) (sb eb sl el : Nat) (cs : List Node) (prev : Option Node)
    (hmem : ty ∈ CHUNK_NODES) :
    ((pySlice code (extStart (.mk ty sb eb sl el cs) prev) eb).length > maxChars →
      walk code maxChars (.mk ty sb eb sl el cs) prev =
        walkChildren code maxChars cs none) ∧
    ((pySlice code (extStart (.mk ty sb eb sl el cs) prev) eb).length ≤ maxChars →
      walk code maxChars (.mk ty sb eb sl el cs) prev =
        [⟨ty, pySlice code (extStart (.mk ty sb eb sl el cs) prev) eb, sl, el⟩]) :=
  ⟨fun hgt => walk_recurse code maxChars ty sb eb sl el cs prev hmem hgt,
   fun hle => walk_keep code maxChars ty sb eb sl el cs prev hmem hle⟩

/-- Witness for C2: the concrete node of the counterexample is split (not
kept) because its comment-extended text exceeds the budget. -/
theorem C2_size_check_uses_extended_text_witness :
    walk (List.replicate 13 'a') 10
      (.mk "function_definition" 5 13 1 1 [.mk "block" 5 13 1 1 []])
      (some (.mk "comment" 0 4 0 0 [])) =
      walkChildren (List.replicate 13 'a') 10 [.mk "block" 5 13 1 1 []] none :=
  (C2_size_check_uses_extended_text (List.replicate 13 'a') 10
      "function_definition" 5 13 1 1 [.mk "block" 5 13 1 1 []]
      (some (.mk "comment" 0 4 0 0 [])) (by decide)).1 (by decide)

/-! ### Claim C3 -/

/-- Claim C3 is false as stated: classification is not per-language. The tag
`function_item` belongs only to the rust allow-list in the spec, yet the
implementation classifies it as chunk-worthy for python too, because the
single global `CHUNK_NODES` set is consulted regardless of language. -/
theorem C3_counterexample :
    is_chunk_unit "function_item" "python" = true ∧
    is_chunk_unit_spec "function_item" "python" = false ∧
    is_chunk_unit "function_item" "python" ≠
      is_chunk_unit_spec "function_item" "python" := by
  decide

/-- Claim C3 (corrected): chunk-unit classification is a pure lookup against
the one global set `CHUNK_NODES` (the union of the per-language lists);
the language argument is ignored, unknown tags classify as false, and a
node whose tag classifies as false is transparently descended into by the
walker. -/
theorem C3_global_lookup (t l1 l2 : String) (code : List Char)
    (maxChars : Nat) (sb eb sl el : Nat) (cs : List Node)
    (prev : Option Node) :
    (is_chunk_unit t l1 = true ↔ t ∈ CHUNK_NODES) ∧
    is_chunk_unit t l1 = is_chunk_unit t l2 ∧
    (is_chunk_unit t l1 = false →
      walk code maxChars (.mk t sb eb sl el cs) prev =
        walkChildren code maxChars cs none) := by
  refine ⟨by simp [is_chunk_unit], rfl, fun hf => ?_⟩
  have hmem : t ∉ CHUNK_NODES := by
    simpa [is_chunk_unit] using hf
  exact walk_pass code maxChars t sb eb sl el cs prev hmem

/-- Witness for C3: the unknown tag `expression_statement` classifies as
false for every language and the walker passes through such a node. -/
theorem C3_global_lookup_witness :
    walk "x = 1".toList 1500 (.mk "expression_statement" 0 5 0 0 []) none =
      walkChildren "x = 1".toList 1500 [] none :=
  (C3_global_lookup "expression_statement" "python" "rust" "x = 1".toList
      1500 0 5 0 0 [] none).2.2 (by decide)

/-! ### Claim C5 -/

/-- Claim C5 (confirmed): the size boundary is inclusive — a chunk-worthy
node whose (comment-extended) text length is at most `max_chars`, in
particular exactly `max_chars`, is emitted whole as exactly one chunk whose
kind is the node's type tag, whose text is the extended slice, and whose
start and end lines are the node's own; its children are not recursed
into. -/
theorem C5_inclusive_boundary (code : List Char) (maxChars : Nat)
    (ty : String) (sb eb sl el : Nat) (cs : List Node) (prev : Option Node)
    (hmem : ty ∈ CHUNK_NODES)
    (hle : (pySlice code (extStart (.mk ty sb eb sl el cs) prev) eb).length ≤ maxChars) :
    walk code maxChars (.mk ty sb eb sl el cs) prev =
      [⟨ty, pySlice code (extStart (.mk ty sb eb sl el cs) prev) eb, sl, el⟩] :=
  walk_keep code maxChars ty sb eb sl el cs prev hmem hle

/-- Witness for C5 at the boundary itself: a `function_definition` spanning
exactly `max_chars = 13` characters is kept whole even though it has a
child that could have been recursed into. -/
theorem C5_inclusive_boundary_witness :
    walk "def f(): pass".toList 13
      (.mk "function_definition" 0 13 0 0 [.mk "block" 9 13 0 0 []]) none =
      [⟨"function_definition", "def f(): pass".toList, 0, 0⟩] := by
  have h := C5_inclusive_boundary "def f(): pass".toList 13
    "function_definition" 0 13 0 0 [.mk "block" 9 13 0 0 []] none
    (by decide) (by decide)
  simpa using h

/-! ### Claim C4 -/

/-- Claim C4 (confirmed): the whole-file fallback chunk is produced exactly
when the walk over the tree yields no chunk and the stripped source is
non-empty; it is then the only chunk, with kind "file", the untrimmed
source as text, start line 0 and end line the number of lines reported by
splitlines. When the walk yields no chunk and the stripped source is empty
the result is empty, and when the walk yields chunks the result is exactly
those chunks (no fallback alongside structural chunks). -/
theorem C4_fallback_iff (code : List Char) (maxChars : Nat) (root : Node) :
    (walk code maxChars root none = [] → pyStrip code ≠ [] →
      parseResult code maxChars root =
        [⟨"file", code, 0, (pySplitlines code).length⟩]) ∧
    (walk code maxChars root none = [] → pyStrip code = [] →
      parseResult code maxChars root = []) ∧
    (walk code maxChars root none ≠ [] →
      parseResult code maxChars root = walk code maxChars root none) := by
  refine ⟨fun hw hs => ?_, fun hw hs => ?_, fun hw => ?_⟩
  · simp [parseResult, hw, hs]
  · simp [parseResult, hw, hs]
  · simp [parseResult, hw]

/-- Witness for C4: a flat two-statement script whose tree holds no
chunk-worthy node falls back to the single whole-file chunk spanning its
2 lines. -/
theorem C4_fallback_iff_witness :
    parseResult "x = 1\ny = 2\n".toList 1500 (.mk "module" 0 12 0 2 []) =
      [⟨"file", "x = 1\ny = 2\n".toList, 0, 2⟩] := by
  have h := (C4_fallback_iff "x = 1\ny = 2\n".toList 1500
    (.mk "module" 0 12 0 2 [])).1 (by decide) (by decide)
  simpa using h

/-! ### Claim C6 -/

/-- Claim C6 (confirmed): when a chunk-worthy node is emitted and its
immediately preceding sibling has type tag "comment", the chunk text starts
at that sibling's start byte; with a non-comment preceding sibling, or no
preceding sibling, the node's own start byte is used. Exactly one preceding
sibling is consulted: the effective start depends only on the single
sibling passed to the walk, and the walker hands each child precisely its
immediate predecessor — no transitive look-back, no look-ahead. -/
theorem C6_comment_absorption (code : List Char) (maxChars : Nat)
    (ty : String) (sb eb sl el : Nat) (cs : List Node) (p : Node)
    (hmem : ty ∈ CHUNK_NODES) :
    (p.type = "comment" →
      extStart (.mk ty sb eb sl el cs) (some p) = p.startByte) ∧
    (p.type ≠ "comment" →
      extStart (.mk ty sb eb sl el cs) (some p) = sb) ∧
    extStart (.mk ty sb eb sl el cs) none = sb ∧
    (p.type = "comment" →
      (pySlice code p.startByte eb).length ≤ maxChars →
      walk code maxChars (.mk ty sb eb sl el cs) (some p) =
        [⟨ty, pySlice code p.startByte eb, sl, el⟩]) ∧
    (∀ a b rest prev,
      walkChildren code maxChars (a :: b :: rest) prev =
        walk code maxChars a prev ++
          (walk code maxChars b (some a) ++
            walkChildren code maxChars rest (some b))) := by
  refine ⟨fun hc => by simp [extStart, hc],
          fun hc => by simp [extStart, hc, Node.startByte],
          by simp [extStart, Node.startByte],
          fun hc hle => ?_,
          fun a b rest prev => by rw [walkChildren_cons, walkChildren_cons]⟩
  have hext : extStart (.mk ty sb eb sl el cs) (some p) = p.startByte := by
    simp [extStart, hc]
  have h := walk_keep code maxChars ty sb eb sl el cs (some p) hmem
    (by rw [hext]; exact hle)
  rw [hext] at h
  exact h

/-- Witness for C6: a `# note` comment line directly above a small function
is absorbed — the emitted chunk text starts at the comment, not at def. -/
theorem C6_comment_absorption_witness :
    walk "# note\ndef f(): pass".toList 1500
      (.mk "function_definition" 7 20 1 1 [])
      (some (.mk "comment" 0 6 0 0 [])) =
      [⟨"function_definition", "# note\ndef f(): pass".toList, 1, 1⟩] := by
  have h := (C6_comment_absorption "# note\ndef f(): pass".toList 1500
    "function_definition" 7 20 1 1 [] (.mk "comment" 0 6 0 0 [])
    (by decide)).2.2.2.1 rfl (by decide)
  simpa using h

/-! ### Claim C9 -/

/-- Claim C9 (confirmed): the public entry point degrades to the empty
chunk list instead of raising — the embedding is a total function, an
extension with no `LANG_MAP` entry yields `[]` before the try block, any
exception from reading or parsing (the error case of the modelled step)
yields `[]`, and an unavailable parser library also yields `[]`. -/
theorem C9_never_raises (available : Bool) (path : List Char)
    (maxChars : Nat) (readParse : Except String (List Char × Node)) :
    (List.lookup (String.mk (pyLower (pySuffix path))) LANG_MAP = none →
      chunk_file available path maxChars readParse = []) ∧
    (∀ e, readParse = Except.error e →
      chunk_file available path maxChars readParse = []) ∧
    (available = false →
      chunk_file available path maxChars readParse = []) := by
  refine ⟨fun hlk => ?_, fun e he => ?_, fun hav => ?_⟩
  · cases available
    · simp [chunk_file]
    · simp [chunk_file, hlk]
  · subst he
    cases available
    · simp [chunk_file]
    · simp only [chunk_file]
      cases List.lookup (String.mk (pyLower (pySuffix path))) LANG_MAP <;> simp
  · subst hav
    simp [chunk_file]

/-- Witness for C9: a `.txt` file has no language mapping and yields the
empty chunk list, and a parser failure on a supported `.py` path also
yields the empty chunk list. -/
theorem C9_never_raises_witness :
    chunk_file true "notes.txt".toList 1500
      (Except.ok ("hello".toList, .mk "module" 0 5 0 0 [])) = [] ∧
    chunk_file true "bad.py".toList 1500
      (Except.error "parse failed") = [] :=
  ⟨(C9_never_raises true "notes.txt".toList 1500
      (Except.ok ("hello".toList, .mk "module" 0 5 0 0 []))).1 (by decide),
   (C9_never_raises true "bad.py".toList 1500
      (Except.error "parse failed")).2.1 "parse failed" rfl⟩

/-! ### Claim C10 -/

/-- Claim C10 (confirmed): comment absorption triggers only on the exact
type tag "comment" — for a chunk-worthy node whose preceding sibling
carries any other tag (for instance `line_comment` or `block_comment`),
the effective start is the node's own start byte, and the emitted chunk's
text therefore starts at the node itself with no boundary extension. -/
theorem C10_exact_tag_only (code : List Char) (maxChars : Nat)
    (ty : String) (sb eb sl el : Nat) (cs : List Node) (p : Node)
    (hmem : ty ∈ CHUNK_NODES) (hp : p.type ≠ "comment") :
    extStart (.mk ty sb eb sl el cs) (some p) = sb ∧
    ((pySlice code sb eb).length ≤ maxChars →
      walk code maxChars (.mk ty sb eb sl el cs) (some p) =
        [⟨ty, pySlice code sb eb, sl, el⟩]) := by
  have hext : extStart (.mk ty sb eb sl el cs) (some p) = sb := by
    simp [extStart, hp, Node.startByte]
  refine ⟨hext, fun hle => ?_⟩
  have h := walk_keep code maxChars ty sb eb sl el cs (some p) hmem
    (by rw [hext]; exact hle)
  rw [hext] at h
  exact h

/-- Witness for C10: a preceding sibling tagged `line_comment` (as rust
grammars use) is not absorbed — the emitted chunk starts at the node's own
start byte, excluding the comment text. -/
theorem C10_exact_tag_only_witness :
    walk "// note\nfn f() {}".toList 1500
      (.mk "function_item" 8 17 1 1 [])
      (some (.mk "line_comment" 0 7 0 0 [])) =
      [⟨"function_item", "fn f() {}".toList, 1, 1⟩] := by
  have h := (C10_exact_tag_only "// note\nfn f() {}".toList 1500
    "function_item" 8 17 1 1 [] (.mk "line_comment" 0 7 0 0 [])
    (by decide) (by decide)).2 (by decide)
  simpa using h



theorem orderedAll_cons (c : Node) (rest : List Node) :
    orderedAll (c :: rest) = true ↔ ordered c = true ∧ orderedAll rest = true := by
  rw [orderedAll]
  simp

theorem ordered_mk (ty : String) (sb eb sl el : Nat) (cs : List Node) :
    ordered (.mk ty sb eb sl el cs) = true ↔
      sl ≤ el ∧ (∀ c ∈ cs, sl ≤ c.startLine ∧ c.endLine ≤ el) ∧
      chainOK cs = true ∧ orderedAll cs = true := by
  rw [ordered]
  simp [List.all_eq_true, and_assoc]

theorem chainOK_cons_cons (a b : Node) (rest : List Node) :
    chainOK (a :: b :: rest) = true ↔
      a.endLine ≤ b.startLine ∧ chainOK (b :: rest) = true := by
  rw [chainOK]
  simp

theorem chainOK_tail (a : Node) (rest : List Node)
    (h : chainOK (a :: rest) = true) : chainOK rest = true := by
  cases rest with
  | nil => rw [chainOK]
  | cons b r => exact ((chainOK_cons_cons a b r).mp h).2

theorem ordered_start_le_end (c : Node) (h : ordered c = true) :
    c.startLine ≤ c.endLine := by
  obtain ⟨ty, sb, eb, sl, el, cs⟩ := c
  exact ((ordered_mk ty sb eb sl el cs).mp h).1

theorem chainOK_le (c : Node) (rest : List Node)
    (hchain : chainOK (c :: rest) = true) (hall : orderedAll rest = true) :
    ∀ d ∈ rest, c.endLine ≤ d.startLine := by
  induction rest generalizing c with
  | nil => intro d hd; simp at hd
  | cons b r ih =>
    intro d hd
    obtain ⟨hcb, hchain2⟩ := (chainOK_cons_cons c b r).mp hchain
    obtain ⟨hob, hor⟩ := (orderedAll_cons b r).mp hall
    rcases List.mem_cons.mp hd with rfl | hd2
    · exact hcb
    · exact le_trans hcb (le_trans (ordered_start_le_end b hob) (ih b hchain2 hor d hd2))

/-- In an ordered tree, every chunk the walker emits from a node starts
within that node's line span; every chunk emitted from a child list starts
within the span of one of its members. -/
theorem walk_start_bounds (code : List Char) (maxChars : Nat) :
    (∀ n prev, ordered n = true → ∀ ch ∈ walk code maxChars n prev,
      n.startLine ≤ ch.start_line ∧ ch.start_line ≤ n.endLine) ∧
    (∀ cs prev, orderedAll cs = true →
      ∀ ch ∈ walkChildren code maxChars cs prev,
        ∃ c ∈ cs, c.startLine ≤ ch.start_line ∧ ch.start_line ≤ c.endLine) := by
  refine walk.mutual_induct code maxChars
    (fun n prev => ordered n = true → ∀ ch ∈ walk code maxChars n prev,
      n.startLine ≤ ch.start_line ∧ ch.start_line ≤ n.endLine)
    (fun cs prev => orderedAll cs = true →
      ∀ ch ∈ walkChildren code maxChars cs prev,
        ∃ c ∈ cs, c.startLine ≤ ch.start_line ∧ ch.start_line ≤ c.endLine)
    ?_ ?_ ?_ ?_ ?_
  · intro ty sb eb sl el cs prev hmem s text hgt ih hord ch hch
    rw [walk_recurse code maxChars ty sb eb sl el cs prev hmem hgt] at hch
    obtain ⟨hsl, hspan, hchain, hall⟩ := (ordered_mk ty sb eb sl el cs).mp hord
    obtain ⟨c, hc, h1, h2⟩ := ih hall ch hch
    obtain ⟨hcs, hce⟩ := hspan c hc
    exact ⟨le_trans hcs h1, le_trans h2 hce⟩
  · intro ty sb eb sl el cs prev hmem s text hle hord ch hch
    rw [walk_keep code maxChars ty sb eb sl el cs prev hmem (Nat.not_lt.mp hle)] at hch
    simp only [List.mem_singleton] at hch
    subst hch
    obtain ⟨hsl, _, _, _⟩ := (ordered_mk ty sb eb sl el cs).mp hord
    exact ⟨le_refl _, hsl⟩
  · intro ty sb eb sl el cs prev hmem ih hord ch hch
    rw [walk_pass code maxChars ty sb eb sl el cs prev hmem] at hch
    obtain ⟨hsl, hspan, hchain, hall⟩ := (ordered_mk ty sb eb sl el cs).mp hord
    obtain ⟨c, hc, h1, h2⟩ := ih hall ch hch
    obtain ⟨hcs, hce⟩ := hspan c hc
    exact ⟨le_trans hcs h1, le_trans h2 hce⟩
  · intro prev hall ch hch
    rw [walkChildren_nil] at hch
    simp at hch
  · intro c rest prev ih1 ih2 hall ch hch
    obtain ⟨hoc, hor⟩ := (orderedAll_cons c rest).mp hall
    rw [walkChildren_cons] at hch
    rcases List.mem_append.mp hch with h | h
    · exact ⟨c, List.mem_cons_self c rest, ih1 hoc ch h⟩
    · obtain ⟨d, hd, hb⟩ := ih2 hor ch h
      exact ⟨d, List.mem_cons_of_mem c hd, hb⟩

/-- In an ordered tree the walker emits chunks with non-decreasing start
lines. -/
theorem walk_sorted (code : List Char) (maxChars : Nat) :
    (∀ n prev, ordered n = true →
      (walk code maxChars n prev).Pairwise
        (fun c1 c2 => c1.start_line ≤ c2.start_line)) ∧
    (∀ cs prev, orderedAll cs = true → chainOK cs = true →
      (walkChildren code maxChars cs prev).Pairwise
        (fun c1 c2 => c1.start_line ≤ c2.start_line)) := by
  refine walk.mutual_induct code maxChars
    (fun n prev => ordered n = true →
      (walk code maxChars n prev).Pairwise
        (fun c1 c2 => c1.start_line ≤ c2.start_line))
    (fun cs prev => orderedAll cs = true → chainOK cs = true →
      (walkChildren code maxChars cs prev).Pairwise
        (fun c1 c2 => c1.start_line ≤ c2.start_line))
    ?_ ?_ ?_ ?_ ?_
  · intro ty sb eb sl el cs prev hmem s text hgt ih hord
    rw [walk_recurse code maxChars ty sb eb sl el cs prev hmem hgt]
    obtain ⟨hsl, hspan, hchain, hall⟩ := (ordered_mk ty sb eb sl el cs).mp hord
    exact ih hall hchain
  · intro ty sb eb sl el cs prev hmem s text hle hord
    rw [walk_keep code maxChars ty sb eb sl el cs prev hmem (Nat.not_lt.mp hle)]
    exact List.pairwise_singleton _ _
  · intro ty sb eb sl el cs prev hmem ih hord
    rw [walk_pass code maxChars ty sb eb sl el cs prev hmem]
    obtain ⟨hsl, hspan, hchain, hall⟩ := (ordered_mk ty sb eb sl el cs).mp hord
    exact ih hall hchain
  · intro prev hall hchain
    rw [walkChildren_nil]
    exact List.Pairwise.nil
  · intro c rest prev ih1 ih2 hall hchain
    obtain ⟨hoc, hor⟩ := (orderedAll_cons c rest).mp hall
    rw [walkChildren_cons]
    rw [List.pairwise_append]
    refine ⟨ih1 hoc, ih2 hor (chainOK_tail c rest hchain), ?_⟩
    intro a ha b hb
    have hab := ((walk_start_bounds code maxChars).1 c prev hoc a ha).2
    obtain ⟨d, hd, hdb, _⟩ := (walk_start_bounds code maxChars).2 rest (some c) hor b hb
    have hcd := chainOK_le c rest hchain hor d hd
    exact le_trans hab (le_trans hcd hdb)

/-- Claim C8 (confirmed): over a tree in document order, the chunk list is
emitted in source order — start lines are non-decreasing. -/
theorem C8_source_order (code : List Char) (maxChars : Nat) (root : Node)
    (h : ordered root = true) :
    (parseResult code maxChars root).Pairwise
      (fun c1 c2 => c1.start_line ≤ c2.start_line) := by
  by_cases hw : walk code maxChars root none = []
  · by_cases hs : pyStrip code = []
    · simp [parseResult, hw, hs]
    · simp [parseResult, hw, hs]
  · have hsor := (walk_sorted code maxChars).1 root none h
    simp only [parseResult]
    rw [if_neg]
    · exact hsor
    · simp [hw]

/-- Witness for C8: two functions on successive lines produce chunks whose
start lines 0 and 1 are non-decreasing. -/
theorem C8_source_order_witness :
    (parseResult "def a(): 1\ndef b(): 2".toList 1500
      (.mk "module" 0 21 0 1
        [.mk "function_definition" 0 10 0 0 [],
         .mk "function_definition" 11 21 1 1 []])).Pairwise
      (fun c1 c2 => c1.start_line ≤ c2.start_line) :=
  C8_source_order "def a(): 1\ndef b(): 2".toList 1500
    (.mk "module" 0 21 0 1
      [.mk "function_definition" 0 10 0 0 [],
       .mk "function_definition" 11 21 1 1 []])
    (by decide)

theorem visitedChildren_nil (code : List Char) (maxChars : Nat)
    (prev : Option Node) (addr : List Nat) (i : Nat) :
    visitedChildren code maxChars [] prev addr i = [] := by
  rw [visitedChildren]

theorem visitedChildren_cons (code : List Char) (maxChars : Nat) (c : Node)
    (rest : List Node) (prev : Option Node) (addr : List Nat) (i : Nat) :
    visitedChildren code maxChars (c :: rest) prev addr i =
      visited code maxChars c prev (addr ++ [i]) ++
      visitedChildren code maxChars rest (some c) addr (i + 1) := by
  rw [visitedChildren]

theorem visited_unit_big (code : List Char) (maxChars : Nat) (ty : String)
    (sb eb sl el : Nat) (cs : List Node) (prev : Option Node)
    (addr : List Nat) (hmem : ty ∈ CHUNK_NODES)
    (hgt : (pySlice code (extStart (.mk ty sb eb sl el cs) prev) eb).length > maxChars) :
    visited code maxChars (.mk ty sb eb sl el cs) prev addr =
      addr :: visitedChildren code maxChars cs none addr 0 := by
  rw [visited]
  simp [hmem, hgt]

theorem visited_unit_small (code : List Char) (maxChars : Nat) (ty : String)
    (sb eb sl el : Nat) (cs : List Node) (prev : Option Node)
    (addr : List Nat) (hmem : ty ∈ CHUNK_NODES)
    (hle : (pySlice code (extStart (.mk ty sb eb sl el cs) prev) eb).length ≤ maxChars) :
    visited code maxChars (.mk ty sb eb sl el cs) prev addr = [addr] := by
  rw [visited]
  simp [hmem, Nat.not_lt.mpr hle]

theorem visited_pass (code : List Char) (maxChars : Nat) (ty : String)
    (sb eb sl el : Nat) (cs : List Node) (prev : Option Node)
    (addr : List Nat) (hmem : ty ∉ CHUNK_NODES) :
    visited code maxChars (.mk ty sb eb sl el cs) prev addr =
      addr :: visitedChildren code maxChars cs none addr 0 := by
  rw [visited]
  simp [hmem]

theorem keptChildren_nil (code : List Char) (maxChars : Nat)
    (prev : Option Node) (addr : List Nat) (i : Nat) :
    keptChildren code maxChars [] prev addr i = [] := by
  rw [keptChildren]

theorem keptChildren_cons (code : List Char) (maxChars : Nat) (c : Node)
    (rest : List Node) (prev : Option Node) (addr : List Nat) (i : Nat) :
    keptChildren code maxChars (c :: rest) prev addr i =
      kept code maxChars c prev (addr ++ [i]) ++
      keptChildren code maxChars rest (some c) addr (i + 1) := by
  rw [keptChildren]

theorem kept_unit_big (code : List Char) (maxChars : Nat) (ty : String)
    (sb eb sl el : Nat) (cs : List Node) (prev : Option Node)
    (addr : List Nat) (hmem : ty ∈ CHUNK_NODES)
    (hgt : (pySlice code (extStart (.mk ty sb eb sl el cs) prev) eb).length > maxChars) :
    kept code maxChars (.mk ty sb eb sl el cs) prev addr =
      keptChildren code maxChars cs none addr 0 := by
  rw [kept]
  simp [hmem, hgt]

theorem kept_unit_small (code : List Char) (maxChars : Nat) (ty : String)
    (sb eb sl el : Nat) (cs : List Node) (prev : Option Node)
    (addr : List Nat) (hmem : ty ∈ CHUNK_NODES)
    (hle : (pySlice code (extStart (.mk ty sb eb sl el cs) prev) eb).length ≤ maxChars) :
    kept code maxChars (.mk ty sb eb sl el cs) prev addr = [addr] := by
  rw [kept]
  simp [hmem, Nat.not_lt.mpr hle]

theorem kept_pass (code : List Char) (maxChars : Nat) (ty : String)
    (sb eb sl el : Nat) (cs : List Node) (prev : Option Node)
    (addr : List Nat) (hmem : ty ∉ CHUNK_NODES) :
    kept code maxChars (.mk ty sb eb sl el cs) prev addr =
      keptChildren code maxChars cs none addr 0 := by
  rw [kept]
  simp [hmem]

/-- Two prefixes of the same list with the same length coincide. -/
theorem prefix_same_length_eq {p q a : List Nat} (hp : p <+: a) (hq : q <+: a)
    (h : p.length = q.length) : p = q :=
  (List.prefix_of_prefix_length_le hp hq h.le).eq_of_length h

/-- Every visited address extends the address of the walk's entry node, and
every address visited in a child list extends the parent address by one
child index at least the starting index. -/
theorem visited_extends (code : List Char) (maxChars : Nat) :
    (∀ n prev addr, ∀ a ∈ visited code maxChars n prev addr, addr <+: a) ∧
    (∀ cs prev addr i, ∀ a ∈ visitedChildren code maxChars cs prev addr i,
      ∃ j, i ≤ j ∧ (addr ++ [j]) <+: a) := by
  refine visited.mutual_induct code maxChars
    (fun n prev addr => ∀ a ∈ visited code maxChars n prev addr, addr <+: a)
    (fun cs prev addr i => ∀ a ∈ visitedChildren code maxChars cs prev addr i,
      ∃ j, i ≤ j ∧ (addr ++ [j]) <+: a)
    ?_ ?_ ?_ ?_ ?_
  · intro ty sb eb sl el cs prev addr hmem hgt ih a ha
    rw [visited_unit_big code maxChars ty sb eb sl el cs prev addr hmem hgt] at ha
    rcases List.mem_cons.mp ha with rfl | ha2
    · exact List.prefix_refl a
    · obtain ⟨j, _, hpre⟩ := ih a ha2
      exact (List.prefix_append addr [j]).trans hpre
  · intro ty sb eb sl el cs prev addr hmem hle a ha
    rw [visited_unit_small code maxChars ty sb eb sl el cs prev addr hmem
      (Nat.not_lt.mp hle)] at ha
    simp only [List.mem_singleton] at ha
    subst ha
    exact List.prefix_refl a
  · intro ty sb eb sl el cs prev addr hmem ih a ha
    rw [visited_pass code maxChars ty sb eb sl el cs prev addr hmem] at ha
    rcases List.mem_cons.mp ha with rfl | ha2
    · exact List.prefix_refl a
    · obtain ⟨j, _, hpre⟩ := ih a ha2
      exact (List.prefix_append addr [j]).trans hpre
  · intro prev addr i a ha
    rw [visitedChildren_nil] at ha
    simp at ha
  · intro c rest prev addr i ih1 ih2 a ha
    rw [visitedChildren_cons] at ha
    rcases List.mem_append.mp ha with h | h
    · exact ⟨i, le_refl i, ih1 a h⟩
    · obtain ⟨j, hij, hpre⟩ := ih2 a h
      exact ⟨j, by omega, hpre⟩

/-- No address is visited twice: each node of the tree is classified at
most once per walk. -/
theorem visited_nodup (code : List Char) (maxChars : Nat) :
    (∀ n prev addr, (visited code maxChars n prev addr).Nodup) ∧
    (∀ cs prev addr i, (visitedChildren code maxChars cs prev addr i).Nodup) := by
  refine visited.mutual_induct code maxChars
    (fun n prev addr => (visited code maxChars n prev addr).Nodup)
    (fun cs prev addr i => (visitedChildren code maxChars cs prev addr i).Nodup)
    ?_ ?_ ?_ ?_ ?_
  · intro ty sb eb sl el cs prev addr hmem hgt ih
    rw [visited_unit_big code maxChars ty sb eb sl el cs prev addr hmem hgt]
    refine List.Nodup.cons (fun hmem2 => ?_) ih
    obtain ⟨j, _, hpre⟩ :=
      (visited_extends code maxChars).2 cs none addr 0 addr hmem2
    have := hpre.length_le
    simp at this
  · intro ty sb eb sl el cs prev addr hmem hle
    rw [visited_unit_small code maxChars ty sb eb sl el cs prev addr hmem
      (Nat.not_lt.mp hle)]
    exact List.nodup_singleton addr
  · intro ty sb eb sl el cs prev addr hmem ih
    rw [visited_pass code maxChars ty sb eb sl el cs prev addr hmem]
    refine List.Nodup.cons (fun hmem2 => ?_) ih
    obtain ⟨j, _, hpre⟩ :=
      (visited_extends code maxChars).2 cs none addr 0 addr hmem2
    have := hpre.length_le
    simp at this
  · intro prev addr i
    rw [visitedChildren_nil]
    exact List.nodup_nil
  · intro c rest prev addr i ih1 ih2
    rw [visitedChildren_cons]
    refine List.Nodup.append ih1 ih2 (List.disjoint_left.mpr ?_)
    intro a ha1 ha2
    have hpre1 := (visited_extends code maxChars).1 c prev (addr ++ [i]) a ha1
    obtain ⟨j, hij, hpre2⟩ :=
      (visited_extends code maxChars).2 rest (some c) addr (i + 1) a ha2
    have heq : addr ++ [i] = addr ++ [j] :=
      prefix_same_length_eq hpre1 hpre2 (by simp)
    have : i = j := by simpa using List.append_cancel_left heq
    omega

/-- Every kept address extends the entry address; kept addresses in a child
list extend the parent address by a child index at least the start index. -/
theorem kept_extends (code : List Char) (maxChars : Nat) :
    (∀ n prev addr, ∀ a ∈ kept code maxChars n prev addr, addr <+: a) ∧
    (∀ cs prev addr i, ∀ a ∈ keptChildren code maxChars cs prev addr i,
      ∃ j, i ≤ j ∧ (addr ++ [j]) <+: a) := by
  refine kept.mutual_induct code maxChars
    (fun n prev addr => ∀ a ∈ kept code maxChars n prev addr, addr <+: a)
    (fun cs prev addr i => ∀ a ∈ keptChildren code maxChars cs prev addr i,
      ∃ j, i ≤ j ∧ (addr ++ [j]) <+: a)
    ?_ ?_ ?_ ?_ ?_
  · intro ty sb eb sl el cs prev addr hmem hgt ih a ha
    rw [kept_unit_big code maxChars ty sb eb sl el cs prev addr hmem hgt] at ha
    obtain ⟨j, _, hpre⟩ := ih a ha
    exact (List.prefix_append addr [j]).trans hpre
  · intro ty sb eb sl el cs prev addr hmem hle a ha
    rw [kept_unit_small code maxChars ty sb eb sl el cs prev addr hmem
      (Nat.not_lt.mp hle)] at ha
    simp only [List.mem_singleton] at ha
    subst ha
    exact List.prefix_refl a
  · intro ty sb eb sl el cs prev addr hmem ih a ha
    rw [kept_pass code maxChars ty sb eb sl el cs prev addr hmem] at ha
    obtain ⟨j, _, hpre⟩ := ih a ha
    exact (List.prefix_append addr [j]).trans hpre
  · intro prev addr i a ha
    rw [keptChildren_nil] at ha
    simp at ha
  · intro c rest prev addr i ih1 ih2 a ha
    rw [keptChildren_cons] at ha
    rcases List.mem_append.mp ha with h | h
    · exact ⟨i, le_refl i, ih1 a h⟩
    · obtain ⟨j, hij, hpre⟩ := ih2 a h
      exact ⟨j, by omega, hpre⟩

/-- Kept addresses are pairwise incomparable under the prefix order: no
kept subtree is contained in another kept subtree. -/
theorem kept_pairwise_incomp (code : List Char) (maxChars : Nat) :
    (∀ n prev addr, (kept code maxChars n prev addr).Pairwise
      (fun p q => ¬ p <+: q ∧ ¬ q <+: p)) ∧
    (∀ cs prev addr i, (keptChildren code maxChars cs prev addr i).Pairwise
      (fun p q => ¬ p <+: q ∧ ¬ q <+: p)) := by
  refine kept.mutual_induct code maxChars
    (fun n prev addr => (kept code maxChars n prev addr).Pairwise
      (fun p q => ¬ p <+: q ∧ ¬ q <+: p))
    (fun cs prev addr i => (keptChildren code maxChars cs prev addr i).Pairwise
      (fun p q => ¬ p <+: q ∧ ¬ q <+: p))
    ?_ ?_ ?_ ?_ ?_
  · intro ty sb eb sl el cs prev addr hmem hgt ih
    rw [kept_unit_big code maxChars ty sb eb sl el cs prev addr hmem hgt]
    exact ih
  · intro ty sb eb sl el cs prev addr hmem hle
    rw [kept_unit_small code maxChars ty sb eb sl el cs prev addr hmem
      (Nat.not_lt.mp hle)]
    exact List.pairwise_singleton _ _
  · intro ty sb eb sl el cs prev addr hmem ih
    rw [kept_pass code maxChars ty sb eb sl el cs prev addr hmem]
    exact ih
  · intro prev addr i
    rw [keptChildren_nil]
    exact List.Pairwise.nil
  · intro c rest prev addr i ih1 ih2
    rw [keptChildren_cons]
    rw [List.pairwise_append]
    refine ⟨ih1, ih2, ?_⟩
    intro p hp q hq
    have hpre1 := (kept_extends code maxChars).1 c prev (addr ++ [i]) p hp
    obtain ⟨j, hij, hpre2⟩ :=
      (kept_extends code maxChars).2 rest (some c) addr (i + 1) q hq
    have hij2 : i ≠ j := by omega
    constructor
    · intro hpq
      have h1 : (addr ++ [i]) <+: q := hpre1.trans hpq
      have heq : addr ++ [i] = addr ++ [j] :=
        prefix_same_length_eq h1 hpre2 (by simp)
      exact hij2 (by simpa using List.append_cancel_left heq)
    · intro hqp
      have h2 : (addr ++ [j]) <+: p := hpre2.trans hqp
      have heq : addr ++ [i] = addr ++ [j] :=
        prefix_same_length_eq hpre1 h2 (by simp)
      exact hij2 (by simpa using List.append_cancel_left heq)

/-- As many kept addresses as emitted chunks: the chunks correspond
one-to-one, in order, to the kept nodes. -/
theorem kept_length_eq_walk (code : List Char) (maxChars : Nat) :
    (∀ n prev addr, (kept code maxChars n prev addr).length =
      (walk code maxChars n prev).length) ∧
    (∀ cs prev addr i, (keptChildren code maxChars cs prev addr i).length =
      (walkChildren code maxChars cs prev).length) := by
  refine kept.mutual_induct code maxChars
    (fun n prev addr => (kept code maxChars n prev addr).length =
      (walk code maxChars n prev).length)
    (fun cs prev addr i => (keptChildren code maxChars cs prev addr i).length =
      (walkChildren code maxChars cs prev).length)
    ?_ ?_ ?_ ?_ ?_
  · intro ty sb eb sl el cs prev addr hmem hgt ih
    rw [kept_unit_big code maxChars ty sb eb sl el cs prev addr hmem hgt,
      walk_recurse code maxChars ty sb eb sl el cs prev hmem hgt]
    exact ih
  · intro ty sb eb sl el cs prev addr hmem hle
    rw [kept_unit_small code maxChars ty sb eb sl el cs prev addr hmem
      (Nat.not_lt.mp hle),
      walk_keep code maxChars ty sb eb sl el cs prev hmem (Nat.not_lt.mp hle)]
    rfl
  · intro ty sb eb sl el cs prev addr hmem ih
    rw [kept_pass code maxChars ty sb eb sl el cs prev addr hmem,
      walk_pass code maxChars ty sb eb sl el cs prev hmem]
    exact ih
  · intro prev addr i
    rw [keptChildren_nil, walkChildren_nil]
    rfl
  · intro c rest prev addr i ih1 ih2
    rw [keptChildren_cons, walkChildren_cons]
    simp [ih1, ih2]

/-- Claim C7 (confirmed): each node of the tree is classified at most once
per walk (the visited addresses are duplicate-free); a chunk-worthy node
within budget is kept — its subtree is absorbed, no descendant is visited
or separately emitted; chunks correspond one-to-one to kept nodes; and no
tree address lies under two different kept nodes, so no node contributes
to two emitted chunks. -/
theorem C7_subtree_absorption (code : List Char) (maxChars : Nat) (n : Node)
    (prev : Option Node) (addr : List Nat) :
    (visited code maxChars n prev addr).Nodup ∧
    (n.type ∈ CHUNK_NODES →
      (pySlice code (extStart n prev) n.endByte).length ≤ maxChars →
      visited code maxChars n prev addr = [addr] ∧
      walk code maxChars n prev =
        [⟨n.type, pySlice code (extStart n prev) n.endByte,
          n.startLine, n.endLine⟩]) ∧
    (kept code maxChars n prev addr).length =
      (walk code maxChars n prev).length ∧
    (∀ r q1 q2, q1 ∈ kept code maxChars n prev addr →
      q2 ∈ kept code maxChars n prev addr →
      q1 <+: r → q2 <+: r → q1 = q2) := by
  refine ⟨(visited_nodup code maxChars).1 n prev addr, ?_,
    (kept_length_eq_walk code maxChars).1 n prev addr, ?_⟩
  · obtain ⟨ty, sb, eb, sl, el, cs⟩ := n
    intro hmem hle
    exact ⟨visited_unit_small code maxChars ty sb eb sl el cs prev addr hmem hle,
      walk_keep code maxChars ty sb eb sl el cs prev hmem hle⟩
  · intro r q1 q2 hq1 hq2 hp1 hp2
    by_cases heq : q1 = q2
    · exact heq
    · exfalso
      have hpw := (kept_pairwise_incomp code maxChars).1 n prev addr
      have hsym : Symmetric (fun p q : List Nat => ¬ p <+: q ∧ ¬ q <+: p) :=
        fun p q h => ⟨h.2, h.1⟩
      have hinc := hpw.forall hsym hq1 hq2 heq
      rcases Nat.le_total q1.length q2.length with hl | hl
      · exact hinc.1 (List.prefix_of_prefix_length_le hp1 hp2 hl)
      · exact hinc.2 (List.prefix_of_prefix_length_le hp2 hp1 hl)

/-- Witness for C7: a small function with a block child is kept whole — the
walk classifies only the root address and emits its single chunk. -/
theorem C7_subtree_absorption_witness :
    visited "def f(): pass".toList 1500
      (.mk "function_definition" 0 13 0 0 [.mk "block" 9 13 0 0 []]) none [] =
      [[]] ∧
    walk "def f(): pass".toList 1500
      (.mk "function_definition" 0 13 0 0 [.mk "block" 9 13 0 0 []]) none =
      [⟨"function_definition", "def f(): pass".toList, 0, 0⟩] := by
  have h := (C7_subtree_absorption "def f(): pass".toList 1500
    (.mk "function_definition" 0 13 0 0 [.mk "block" 9 13 0 0 []]) none []).2.1
    (by decide) (by decide)
  refine ⟨h.1, ?_⟩
  rw [h.2]
  decide


end CodeChunker
